import Mathlib

/-!
Verification of the Brainfuck interpreter/compiler (src/lib.rs, src/tape/mod.rs,
src/tape/impls.rs) against its specification.  The Rust source is shallowly
embedded below: strings become lists of characters, `Vec`-backed tapes become
`List`s, the `[D; N]` fixed tape becomes a `List` of length `N`, and the
fallible/panicking parts of `step` are made explicit with `Option`/`Except`.
-/

namespace Brainfuck

/-- The eight Brainfuck instructions, mirroring the `BrainfuckInstruction` enum
in src/lib.rs.  Jump instructions carry their offset (0 until resolved). -/
inductive BrainfuckInstruction : Type where
  | incrementDataPointer
  | decrementDataPointer
  | increaseData
  | decreaseData
  | output
  | input
  | jumpForward (offset : Nat)
  | jumpBackwards (offset : Nat)
deriving DecidableEq, Repr

/-- Whether an instruction is a jump-forward, ignoring its offset. -/
def BrainfuckInstruction.isJumpF : BrainfuckInstruction → Bool
  | .jumpForward _ => true
  | _ => false

/-- Whether an instruction is a jump-backward, ignoring its offset. -/
def BrainfuckInstruction.isJumpB : BrainfuckInstruction → Bool
  | .jumpBackwards _ => true
  | _ => false

/-- A `Span` from src/lib.rs: an instruction plus its position in the source.
The borrowed source text `&'a str` is embedded as the full character list. -/
structure Span where
  instruction : BrainfuckInstruction
  text : List Char
  line : Nat
  character : Nat
deriving DecidableEq, Repr

instance : Inhabited Span :=
  ⟨{ instruction := .incrementDataPointer, text := [], line := 0, character := 0 }⟩

/-- The `Error` enum from src/lib.rs. -/
inductive Error where
  | missingClosingBrace (s : Span)
  | missingOpeningBrace (s : Span)
deriving DecidableEq, Repr

/-- The `BrainfuckProgram` struct from src/lib.rs, generic in the tape type. -/
structure BrainfuckProgram (T : Type) where
  instruction_pointer : Nat
  data_pointer : Nat
  instructions : List BrainfuckInstruction
  tape : T
deriving DecidableEq, Repr

/-- `VALID_CHARS` from src/lib.rs. -/
def VALID_CHARS : List Char := ['>', '<', '+', '-', '.', ',', '[', ']']

/-- The recognition branch of `parse_input`: the `VALID_CHARS.contains`
check combined with the character match, as one partial map. -/
def instrOfChar : Char → Option BrainfuckInstruction
  | '>' => some .incrementDataPointer
  | '<' => some .decrementDataPointer
  | '+' => some .increaseData
  | '-' => some .decreaseData
  | '.' => some .output
  | ',' => some .input
  | '[' => some (.jumpForward 0)
  | ']' => some (.jumpBackwards 0)
  | _ => none

/-- Split a character list at every newline character, keeping empty pieces,
modelling the segmentation underlying Rust's `str::lines`. -/
def splitNl : List Char → List (List Char)
  | [] => [[]]
  | c :: rest =>
    if c = '\n' then [] :: splitNl rest
    else
      match splitNl rest with
      | [] => [[c]]
      | l :: ls => (c :: l) :: ls

/-- Rejoin newline-split segments with the newline characters they lost; the
inverse of `splitNl`, used to relate the line view back to the raw source. -/
def joinNl : List (List Char) → List Char
  | [] => []
  | [l] => l
  | l :: ls => l ++ '\n' :: joinNl ls

/-- Strip one trailing carriage return, as Rust's `lines` does on every
newline-terminated segment. -/
def stripCR (l : List Char) : List Char :=
  if l.getLast? = some '\r' then l.dropLast else l

/-- Post-process the newline-split segments: every segment except the last was
terminated by a newline and has a trailing carriage return stripped; a final
empty segment (trailing newline or empty input) yields no line. -/
def rustLinesAux : List (List Char) → List (List Char)
  | [] => []
  | [p] => if p = [] then [] else [p]
  | p :: rest => stripCR p :: rustLinesAux rest

/-- Rust's `str::lines`, on character lists. -/
def rustLines (s : List Char) : List (List Char) := rustLinesAux (splitNl s)

/-- The inner loop of `parse_input`: scan one line, with the running 1-based
character counter (incremented before each character is examined). -/
def parseLine (text : List Char) (line_ind : Nat) : Nat → List Char → List Span
  | _, [] => []
  | char_ind, c :: rest =>
    match instrOfChar c with
    | some instr =>
      { instruction := instr
        text := text
        line := line_ind
        character := char_ind + 1 } :: parseLine text line_ind (char_ind + 1) rest
    | none => parseLine text line_ind (char_ind + 1) rest

/-- The outer loop of `parse_input`: the character counter resets to 0 at each
line and the line counter increments once per line. -/
def parseLines (text : List Char) : Nat → List (List Char) → List Span
  | _, [] => []
  | line_ind, l :: rest =>
    parseLine text line_ind 0 l ++ parseLines text (line_ind + 1) rest

/-- The spans produced by `parse_input`. -/
def parseSpans (input : List Char) : List Span :=
  parseLines input 0 (rustLines input)

/-- `parse_input` from src/lib.rs; its `Result` is always `Ok`. -/
def parse_input (input : List Char) : Except Error (List Span) :=
  .ok (parseSpans input)

/-- The instruction sequence recognized in the source, before resolution. -/
def parseInstrs (input : List Char) : List BrainfuckInstruction :=
  (parseSpans input).map Span.instruction

/-- The scanning loop of `find_closer`, over the instructions after the
jump-forward: `off` is the count of instructions already scanned and `openers`
the nesting counter of extra jump-forwards. -/
def findCloserAux : List BrainfuckInstruction → Nat → Nat → Option Nat
  | [], _, _ => none
  | i :: rest, off, openers =>
    match i with
    | .jumpBackwards _ =>
      if openers = 0 then some (off + 2)
      else findCloserAux rest (off + 1) (openers - 1)
    | .jumpForward _ => findCloserAux rest (off + 1) (openers + 1)
    | _ => findCloserAux rest (off + 1) openers

/-- The scanning loop of `find_opener`, over the reversed instructions before
the jump-backward. -/
def findOpenerAux : List BrainfuckInstruction → Nat → Nat → Option Nat
  | [], _, _ => none
  | i :: rest, off, closers =>
    match i with
    | .jumpForward _ =>
      if closers = 0 then some off
      else findOpenerAux rest (off + 1) (closers - 1)
    | .jumpBackwards _ => findOpenerAux rest (off + 1) (closers + 1)
    | _ => findOpenerAux rest (off + 1) closers

/-- `find_closer` from src/lib.rs.  The source's `get_unchecked(index)` is
embedded as `getD index default`; `compile` only calls it with `index` in
bounds. -/
def find_closer (index : Nat) (instructions : List Span) : Except Error Nat :=
  match findCloserAux ((instructions.drop (index + 1)).map Span.instruction) 0 0 with
  | some off => .ok off
  | none => .error (.missingClosingBrace (instructions.getD index default))

/-- `find_opener` from src/lib.rs.  `iter().rev().skip(len - index)` scans the
reverse of the first `index` spans. -/
def find_opener (index : Nat) (instructions : List Span) : Except Error Nat :=
  match findOpenerAux (((instructions.take index).map Span.instruction).reverse) 0 0 with
  | some off => .ok off
  | none => .error (.missingOpeningBrace (instructions.getD index default))

/-- The offset-resolution loop of `compile`: walk the spans with their index,
replacing every jump offset by the scan result over the original (cloned) span
list, propagating the first error. -/
def resolveSpans (clone : List Span) : Nat → List Span → Except Error (List Span)
  | _, [] => .ok []
  | index, s :: rest =>
    match s.instruction with
    | .jumpForward _ =>
      match find_closer index clone with
      | .error e => .error e
      | .ok off =>
        match resolveSpans clone (index + 1) rest with
        | .error e => .error e
        | .ok rs => .ok ({ s with instruction := .jumpForward off } :: rs)
    | .jumpBackwards _ =>
      match find_opener index clone with
      | .error e => .error e
      | .ok off =>
        match resolveSpans clone (index + 1) rest with
        | .error e => .error e
        | .ok rs => .ok ({ s with instruction := .jumpBackwards off } :: rs)
    | _ =>
      match resolveSpans clone (index + 1) rest with
      | .error e => .error e
      | .ok rs => .ok (s :: rs)

/-- `compile` from src/lib.rs. -/
def compile {T : Type} (input : List Char) (tape : T) :
    Except Error (BrainfuckProgram T) :=
  match parse_input input with
  | .error e => .error e
  | .ok parse_result =>
    match resolveSpans parse_result 0 parse_result with
    | .error e => .error e
    | .ok resolved =>
      .ok { instruction_pointer := 0
            data_pointer := 0
            instructions := resolved.map Span.instruction
            tape := tape }

/-- The `TapeData` trait from src/tape/mod.rs. -/
structure TapeData (D : Type) where
  zero : D
  increase : D → D
  decrease : D → D

/-- The `u8` instance of `TapeData`: bytes as naturals below 256, with
wrapping increment and decrement. -/
def u8Data : TapeData Nat :=
  { zero := 0, increase := fun d => (d + 1) % 256, decrease := fun d => (d + 255) % 256 }

/-- The `Tape` trait from src/tape/mod.rs.  `get_data_at_mut` returns the tape
after the access (a `Vec` may have grown) together with the value under the
returned mutable reference; `writeAt` is a write through that reference. -/
structure TapeOps (T D : Type) where
  getDataAtMut : T → Nat → Option (T × D)
  writeAt : T → Nat → D → T
  reset : T → T

/-- The `resize(index + 1, zero)` growth step of the `Vec` tape
(src/tape/impls.rs): extend with zeroes whenever `len <= index`. -/
def vecGrow {D : Type} (td : TapeData D) (t : List D) (i : Nat) : List D :=
  if t.length ≤ i then t ++ List.replicate (i + 1 - t.length) td.zero else t

/-- `Vec::get_data_at` from src/tape/impls.rs: grows, then always succeeds. -/
def vecGetDataAt {D : Type} (td : TapeData D) (t : List D) (i : Nat) :
    Option (List D × D) :=
  some (vecGrow td t i, (vecGrow td t i).getD i td.zero)

/-- `Vec::get_data_at_mut` from src/tape/impls.rs (same access pattern). -/
def vecGetDataAtMut {D : Type} (td : TapeData D) (t : List D) (i : Nat) :
    Option (List D × D) :=
  some (vecGrow td t i, (vecGrow td t i).getD i td.zero)

/-- `[D; N]::get_data_at` from src/tape/impls.rs: the list length plays the
array capacity `N`; out-of-range indices yield `none`. -/
def arrGetDataAt {D : Type} (t : List D) (i : Nat) : Option D :=
  if h : i < t.length then some (t.get ⟨i, h⟩) else none

/-- `[D; N]::get_data_at_mut` from src/tape/impls.rs. -/
def arrGetDataAtMut {D : Type} (t : List D) (i : Nat) : Option D :=
  if h : i < t.length then some (t.get ⟨i, h⟩) else none

/-- The `Vec` tape implementation packaged as `TapeOps`. -/
def vecOps {D : Type} (td : TapeData D) : TapeOps (List D) D :=
  { getDataAtMut := fun t i => vecGetDataAtMut td t i
    writeAt := fun t i d => t.set i d
    reset := fun t => t.map (fun _ => td.zero) }

/-- The fixed-capacity `[D; N]` tape implementation packaged as `TapeOps`.  The
tape never changes length, so the access returns the tape unchanged. -/
def arrOps {D : Type} (td : TapeData D) : TapeOps (List D) D :=
  { getDataAtMut := fun t i => (arrGetDataAtMut t i).map (fun d => (t, d))
    writeAt := fun t i d => t.set i d
    reset := fun t => t.map (fun _ => td.zero) }

/-- The observable outcome of one `step` call: whether it returned the halted
signal `Err(())`, the program state afterwards, the bytes passed to the output
sink, and the new position in the input stream. -/
structure StepEffect (T D : Type) where
  halted : Bool
  prog : BrainfuckProgram T
  out : List D
  nextIn : Nat
deriving DecidableEq, Repr

/-- `step` from src/lib.rs.  The cell at the data pointer is fetched before
the instruction is looked up, exactly as in the source; a failed fetch is the
source's panic, embedded as `none`.  `inp` is the byte source as a stream read
at position `inIdx`; decrementing the data pointer at 0 is the source's
unchecked `usize` underflow, embedded as truncated subtraction. -/
def step {T D : Type} [DecidableEq D] (td : TapeData D) (ops : TapeOps T D)
    (p : BrainfuckProgram T) (inp : Nat → D) (inIdx : Nat) :
    Option (StepEffect T D) :=
  match ops.getDataAtMut p.tape p.data_pointer with
  | none => none
  | some (t1, data) =>
    match p.instructions[p.instruction_pointer]? with
    | none =>
      some { halted := true
             prog := { p with tape := t1 }
             out := []
             nextIn := inIdx }
    | some instr =>
      match instr with
      | .incrementDataPointer =>
        some { halted := false
               prog := { p with
                 tape := t1
                 data_pointer := p.data_pointer + 1
                 instruction_pointer := p.instruction_pointer + 1 }
               out := []
               nextIn := inIdx }
      | .decrementDataPointer =>
        some { halted := false
               prog := { p with
                 tape := t1
                 data_pointer := p.data_pointer - 1
                 instruction_pointer := p.instruction_pointer + 1 }
               out := []
               nextIn := inIdx }
      | .increaseData =>
        some { halted := false
               prog := { p with
                 tape := ops.writeAt t1 p.data_pointer (td.increase data)
                 instruction_pointer := p.instruction_pointer + 1 }
               out := []
               nextIn := inIdx }
      | .decreaseData =>
        some { halted := false
               prog := { p with
                 tape := ops.writeAt t1 p.data_pointer (td.decrease data)
                 instruction_pointer := p.instruction_pointer + 1 }
               out := []
               nextIn := inIdx }
      | .output =>
        some { halted := false
               prog := { p with
                 tape := t1
                 instruction_pointer := p.instruction_pointer + 1 }
               out := [data]
               nextIn := inIdx }
      | .input =>
        some { halted := false
               prog := { p with
                 tape := ops.writeAt t1 p.data_pointer (inp inIdx)
                 instruction_pointer := p.instruction_pointer + 1 }
               out := []
               nextIn := inIdx + 1 }
      | .jumpForward offset =>
        if data = td.zero then
          some { halted := false
                 prog := { p with
                   tape := t1
                   instruction_pointer := p.instruction_pointer + offset }
                 out := []
                 nextIn := inIdx }
        else
          some { halted := false
                 prog := { p with
                   tape := t1
                   instruction_pointer := p.instruction_pointer + 1 }
                 out := []
                 nextIn := inIdx }
      | .jumpBackwards offset =>
        if data ≠ td.zero then
          some { halted := false
                 prog := { p with
                   tape := t1
                   instruction_pointer := p.instruction_pointer - offset }
                 out := []
                 nextIn := inIdx }
        else
          some { halted := false
                 prog := { p with
                   tape := t1
                   instruction_pointer := p.instruction_pointer + 1 }
                 out := []
                 nextIn := inIdx }

/-- `reset` from src/lib.rs. -/
def BrainfuckProgram.reset {T D : Type} (ops : TapeOps T D)
    (p : BrainfuckProgram T) : BrainfuckProgram T :=
  { p with data_pointer := 0, instruction_pointer := 0, tape := ops.reset p.tape }

/-- A constant byte source used in concrete executions. -/
def zeroInput : Nat → Nat := fun _ => 0

/-- Properly nested bracket sequences: the empty sequence, a non-bracket
instruction before a nested sequence, or a jump-forward/jump-backward pair
enclosing a nested sequence followed by one.  Offsets are ignored. -/
inductive Balanced : List BrainfuckInstruction → Prop
  | nil : Balanced []
  | other (i : BrainfuckInstruction) (l : List BrainfuckInstruction) :
      i.isJumpF = false → i.isJumpB = false → Balanced l → Balanced (i :: l)
  | bracket (o₁ o₂ : Nat) (l m : List BrainfuckInstruction) :
      Balanced l → Balanced m →
      Balanced (.jumpForward o₁ :: l ++ .jumpBackwards o₂ :: m)

/-- The mirror image of `Balanced`: properly nested with jump-backward as the
opening bracket, the shape of a reversed balanced sequence. -/
inductive RevBal : List BrainfuckInstruction → Prop
  | nil : RevBal []
  | other (i : BrainfuckInstruction) (l : List BrainfuckInstruction) :
      i.isJumpF = false → i.isJumpB = false → RevBal l → RevBal (i :: l)
  | bracket (o₁ o₂ : Nat) (l m : List BrainfuckInstruction) :
      RevBal l → RevBal m →
      RevBal (.jumpBackwards o₁ :: l ++ .jumpForward o₂ :: m)

/-- `MatchAt l i j`: the jump-forward at index `i` and the jump-backward at
index `j` are partners: the instructions strictly between them are properly
nested. -/
def MatchAt (l : List BrainfuckInstruction) (i j : Nat) : Prop :=
  ∃ pre seg post o o₂,
    l = pre ++ .jumpForward o :: seg ++ .jumpBackwards o₂ :: post ∧
    Balanced seg ∧ i = pre.length ∧ j = pre.length + seg.length + 1

/-- The prefixes consumable by the `find_opener` scan started with nesting
counter `cl` without meeting a jump-forward at counter zero, ending with the
counter at zero. -/
inductive Consume : Nat → List BrainfuckInstruction → Prop
  | nil : Consume 0 []
  | jb (o cl : Nat) (a : List BrainfuckInstruction) :
      Consume (cl + 1) a → Consume cl (.jumpBackwards o :: a)
  | jf (o cl : Nat) (a : List BrainfuckInstruction) :
      Consume cl a → Consume (cl + 1) (.jumpForward o :: a)
  | other (i : BrainfuckInstruction) (cl : Nat) (a : List BrainfuckInstruction) :
      i.isJumpF = false → i.isJumpB = false → Consume cl a → Consume cl (i :: a)

/-- Structural reading of a `Consume cl` prefix: `cl` blocks, each a `RevBal`
sequence closed by a jump-forward, followed by a final `RevBal` sequence. -/
def ConsStruct : Nat → List BrainfuckInstruction → Prop
  | 0, a => RevBal a
  | cl + 1, a =>
    ∃ b o c, a = b ++ .jumpForward o :: c ∧ RevBal b ∧ ConsStruct cl c

/-- Spec-level description of scanning one line (for the position claim):
every character of the line is enumerated from position 0, recognized
characters produce a span whose character index is the 1-based raw column. -/
def scanLineSpec (text : List Char) (lineIdx : Nat) (line : List Char) :
    List Span :=
  (line.enum).filterMap fun pc =>
    (instrOfChar pc.2).map fun ins =>
      { instruction := ins
        text := text
        line := lineIdx
        character := pc.1 + 1 }

/-- Spec-level description of the whole scan: lines are enumerated from 0 (the
line index of a character is the number of line terminators before it), and
each line is scanned by `scanLineSpec`. -/
def scanSpec (input : List Char) : List Span :=
  ((rustLines input).enum).flatMap fun ll => scanLineSpec input ll.1 ll.2

/-! Scanner lemmas: the faithful `parse_input` loops agree with the spec-level
positional description, and the recognized instruction sequence is the
`filterMap` of the recognizer over the raw source characters. -/

theorem instrOfChar_nl : instrOfChar '\n' = none := by decide

theorem instrOfChar_cr : instrOfChar '\r' = none := by decide

theorem parseLine_eq_enumFrom (text : List Char) (li : Nat) :
    ∀ (line : List Char) (n : Nat),
      parseLine text li n line =
        (line.enumFrom n).filterMap fun pc =>
          (instrOfChar pc.2).map fun ins =>
            { instruction := ins, text := text, line := li, character := pc.1 + 1 }
  | [], n => by simp [parseLine]
  | c :: cs, n => by
    cases h : instrOfChar c with
    | some ins =>
      simp [parseLine, h, List.enumFrom_cons, List.filterMap_cons,
        parseLine_eq_enumFrom text li cs (n + 1)]
    | none =>
      simp [parseLine, h, List.enumFrom_cons, List.filterMap_cons,
        parseLine_eq_enumFrom text li cs (n + 1)]

theorem parseLines_eq_enumFrom (text : List Char) :
    ∀ (ls : List (List Char)) (b : Nat),
      parseLines text b ls =
        (ls.enumFrom b).flatMap fun ll => scanLineSpec text ll.1 ll.2
  | [], b => by simp [parseLines]
  | l :: ls, b => by
    simp only [parseLines, List.enumFrom_cons, List.flatMap_cons,
      parseLines_eq_enumFrom text ls (b + 1)]
    congr 1
    rw [scanLineSpec, List.enum, parseLine_eq_enumFrom]

theorem map_instruction_parseLine (text : List Char) (li : Nat) :
    ∀ (line : List Char) (n : Nat),
      (parseLine text li n line).map Span.instruction = line.filterMap instrOfChar
  | [], n => by simp [parseLine]
  | c :: cs, n => by
    cases h : instrOfChar c with
    | some ins =>
      simp [parseLine, h, List.filterMap_cons, map_instruction_parseLine text li cs (n + 1)]
    | none =>
      simp [parseLine, h, List.filterMap_cons, map_instruction_parseLine text li cs (n + 1)]

theorem map_instruction_parseLines (text : List Char) :
    ∀ (ls : List (List Char)) (b : Nat),
      (parseLines text b ls).map Span.instruction =
        ls.flatMap fun l => l.filterMap instrOfChar
  | [], b => by simp [parseLines]
  | l :: ls, b => by
    simp [parseLines, List.flatMap_cons, map_instruction_parseLine,
      map_instruction_parseLines text ls (b + 1)]

theorem filterMap_stripCR (l : List Char) :
    (stripCR l).filterMap instrOfChar = l.filterMap instrOfChar := by
  rcases l.eq_nil_or_concat with rfl | ⟨L, b, rfl⟩
  · rfl
  · simp only [List.concat_eq_append, stripCR, List.getLast?_concat]
    by_cases hb : b = '\r'
    · subst hb
      simp [List.dropLast_concat, List.filterMap_append, instrOfChar_cr]
    · simp [hb]

theorem flatMap_filterMap_rustLinesAux :
    ∀ ps : List (List Char),
      ((rustLinesAux ps).flatMap fun l => l.filterMap instrOfChar) =
        ps.flatMap fun l => l.filterMap instrOfChar
  | [] => by simp [rustLinesAux]
  | [p] => by
    by_cases hp : p = []
    · simp [rustLinesAux, hp]
    · simp [rustLinesAux, hp]
  | p :: q :: rest => by
    simp [rustLinesAux, filterMap_stripCR, flatMap_filterMap_rustLinesAux (q :: rest)]

theorem splitNl_ne_nil : ∀ s : List Char, splitNl s ≠ []
  | [] => by simp [splitNl]
  | c :: rest => by
    by_cases h : c = '\n'
    · simp [splitNl, h]
    · simp only [splitNl, h, if_false]
      cases hs : splitNl rest <;> simp

theorem joinNl_splitNl : ∀ s : List Char, joinNl (splitNl s) = s
  | [] => rfl
  | c :: rest => by
    by_cases h : c = '\n'
    · subst h
      simp only [splitNl, if_pos rfl]
      cases hs : splitNl rest with
      | nil => exact absurd hs (splitNl_ne_nil rest)
      | cons l ls =>
        have := joinNl_splitNl rest
        rw [hs] at this
        simp [joinNl, ← this]
    · simp only [splitNl, h, if_false]
      cases hs : splitNl rest with
      | nil => exact absurd hs (splitNl_ne_nil rest)
      | cons l ls =>
        have := joinNl_splitNl rest
        rw [hs] at this
        cases ls with
        | nil => simp_all [joinNl]
        | cons l2 ls2 => simp_all [joinNl]

theorem filterMap_joinNl :
    ∀ ps : List (List Char),
      (joinNl ps).filterMap instrOfChar =
        ps.flatMap fun l => l.filterMap instrOfChar
  | [] => by simp [joinNl]
  | [p] => by simp [joinNl]
  | p :: q :: rest => by
    simp [joinNl, List.filterMap_append, List.filterMap_cons, instrOfChar_nl,
      filterMap_joinNl (q :: rest)]

theorem parseInstrs_eq_filterMap (input : List Char) :
    parseInstrs input = input.filterMap instrOfChar := by
  rw [parseInstrs, parseSpans, map_instruction_parseLines, rustLines,
    flatMap_filterMap_rustLinesAux, ← filterMap_joinNl, joinNl_splitNl]

/-! Bracket-resolver lemmas. -/

theorem findCloserAux_cons_other (i : BrainfuckInstruction)
    (h1 : i.isJumpF = false) (h2 : i.isJumpB = false)
    (rest : List BrainfuckInstruction) (off op : Nat) :
    findCloserAux (i :: rest) off op = findCloserAux rest (off + 1) op := by
  cases i <;>
    simp_all [findCloserAux, BrainfuckInstruction.isJumpF, BrainfuckInstruction.isJumpB]

theorem findCloserAux_cons_jf (o : Nat) (rest : List BrainfuckInstruction)
    (off op : Nat) :
    findCloserAux (.jumpForward o :: rest) off op =
      findCloserAux rest (off + 1) (op + 1) := by
  simp [findCloserAux]

theorem findCloserAux_cons_jb_zero (o : Nat) (rest : List BrainfuckInstruction)
    (off : Nat) :
    findCloserAux (.jumpBackwards o :: rest) off 0 = some (off + 2) := by
  simp [findCloserAux]

theorem findCloserAux_cons_jb_succ (o : Nat) (rest : List BrainfuckInstruction)
    (off op : Nat) :
    findCloserAux (.jumpBackwards o :: rest) off (op + 1) =
      findCloserAux rest (off + 1) op := by
  simp [findCloserAux]

theorem findOpenerAux_cons_other (i : BrainfuckInstruction)
    (h1 : i.isJumpF = false) (h2 : i.isJumpB = false)
    (rest : List BrainfuckInstruction) (off cl : Nat) :
    findOpenerAux (i :: rest) off cl = findOpenerAux rest (off + 1) cl := by
  cases i <;>
    simp_all [findOpenerAux, BrainfuckInstruction.isJumpF, BrainfuckInstruction.isJumpB]

theorem findOpenerAux_cons_jb (o : Nat) (rest : List BrainfuckInstruction)
    (off cl : Nat) :
    findOpenerAux (.jumpBackwards o :: rest) off cl =
      findOpenerAux rest (off + 1) (cl + 1) := by
  simp [findOpenerAux]

theorem findOpenerAux_cons_jf_zero (o : Nat) (rest : List BrainfuckInstruction)
    (off : Nat) :
    findOpenerAux (.jumpForward o :: rest) off 0 = some off := by
  simp [findOpenerAux]

theorem findOpenerAux_cons_jf_succ (o : Nat) (rest : List BrainfuckInstruction)
    (off cl : Nat) :
    findOpenerAux (.jumpForward o :: rest) off (cl + 1) =
      findOpenerAux rest (off + 1) cl := by
  simp [findOpenerAux]

theorem balanced_append {l m : List BrainfuckInstruction}
    (hl : Balanced l) (hm : Balanced m) : Balanced (l ++ m) := by
  induction hl with
  | nil => simpa using hm
  | other i a h1 h2 _ ih => exact Balanced.other i _ h1 h2 ih
  | bracket o₁ o₂ a b ha _ _ ihb =>
    have h := Balanced.bracket o₁ o₂ a (b ++ m) ha ihb
    simpa [List.append_assoc] using h

theorem revBal_append {l m : List BrainfuckInstruction}
    (hl : RevBal l) (hm : RevBal m) : RevBal (l ++ m) := by
  induction hl with
  | nil => simpa using hm
  | other i a h1 h2 _ ih => exact RevBal.other i _ h1 h2 ih
  | bracket o₁ o₂ a b ha _ _ ihb =>
    have h := RevBal.bracket o₁ o₂ a (b ++ m) ha ihb
    simpa [List.append_assoc] using h

theorem revBal_reverse_of_balanced {l : List BrainfuckInstruction}
    (h : Balanced l) : RevBal l.reverse := by
  induction h with
  | nil => exact RevBal.nil
  | other i a h1 h2 _ ih =>
    rw [List.reverse_cons]
    exact revBal_append ih (RevBal.other i [] h1 h2 RevBal.nil)
  | bracket o₁ o₂ a b _ _ iha ihb =>
    have hb2 : RevBal (.jumpBackwards o₂ :: a.reverse ++ .jumpForward o₁ :: ([] : List BrainfuckInstruction)) :=
      RevBal.bracket o₂ o₁ a.reverse [] iha RevBal.nil
    have h := revBal_append ihb hb2
    simpa [List.reverse_cons, List.reverse_append, List.append_assoc] using h

theorem balanced_reverse_of_revBal {l : List BrainfuckInstruction}
    (h : RevBal l) : Balanced l.reverse := by
  induction h with
  | nil => exact Balanced.nil
  | other i a h1 h2 _ ih =>
    rw [List.reverse_cons]
    exact balanced_append ih (Balanced.other i [] h1 h2 Balanced.nil)
  | bracket o₁ o₂ a b _ _ iha ihb =>
    have hb2 : Balanced (.jumpForward o₂ :: a.reverse ++ .jumpBackwards o₁ :: ([] : List BrainfuckInstruction)) :=
      Balanced.bracket o₂ o₁ a.reverse [] iha Balanced.nil
    have h := balanced_append ihb hb2
    simpa [List.reverse_cons, List.reverse_append, List.append_assoc] using h

theorem findCloserAux_balanced_append {a : List BrainfuckInstruction}
    (hb : Balanced a) :
    ∀ (rest : List BrainfuckInstruction) (off op : Nat),
      findCloserAux (a ++ rest) off op = findCloserAux rest (off + a.length) op := by
  induction hb with
  | nil => intro rest off op; simp
  | other i l h1 h2 _ ih =>
    intro rest off op
    rw [List.cons_append, findCloserAux_cons_other i h1 h2, ih]
    congr 1
    simp only [List.length_cons]
    omega
  | bracket o₁ o₂ l m _ _ ihl ihm =>
    intro rest off op
    have hshape :
        (BrainfuckInstruction.jumpForward o₁ :: l ++ .jumpBackwards o₂ :: m) ++ rest =
          .jumpForward o₁ :: (l ++ .jumpBackwards o₂ :: (m ++ rest)) := by
      simp [List.append_assoc]
    rw [hshape, findCloserAux_cons_jf, ihl, findCloserAux_cons_jb_succ, ihm]
    congr 1
    simp only [List.length_cons, List.length_append]
    omega

theorem matchAt_of_balanced_jf {l : List BrainfuckInstruction} (hb : Balanced l) :
    ∀ (i o : Nat), l[i]? = some (.jumpForward o) → ∃ j, MatchAt l i j := by
  induction hb with
  | nil => intro i o hi; simp at hi
  | other i₀ a h1 h2 _ ih =>
    intro i o hi
    cases i with
    | zero =>
      simp only [List.getElem?_cons_zero, Option.some_inj] at hi
      subst hi
      simp [BrainfuckInstruction.isJumpF] at h1
    | succ i =>
      simp only [List.getElem?_cons_succ] at hi
      obtain ⟨j, pre, seg, post, o', o₂, heq, hseg, hieq, hjeq⟩ := ih i o hi
      refine ⟨j + 1, i₀ :: pre, seg, post, o', o₂, ?_, hseg, ?_, ?_⟩
      · simp [heq]
      · simp [hieq]
      · simp only [List.length_cons]; omega
  | bracket o₁ o₂ a b _ _ iha ihb =>
    intro i o hi
    cases i with
    | zero =>
      exact ⟨a.length + 1, [], a, b, o₁, o₂, by simp, by assumption, by simp, by simp⟩
    | succ i =>
      simp only [List.cons_append, List.getElem?_cons_succ] at hi
      rcases Nat.lt_trichotomy i a.length with hlt | heq | hgt
      · rw [List.getElem?_append_left hlt] at hi
        obtain ⟨j, pre, seg, post, o', o₂', hdec, hseg, hieq, hjeq⟩ := iha i o hi
        refine ⟨j + 1, .jumpForward o₁ :: pre, seg, post ++ .jumpBackwards o₂ :: b,
          o', o₂', ?_, hseg, ?_, ?_⟩
        · simp [hdec, List.append_assoc]
        · simp [hieq]
        · simp only [List.length_cons]; omega
      · subst heq
        rw [List.getElem?_append_right (Nat.le_refl _)] at hi
        simp at hi
      · have hle : a.length ≤ i := Nat.le_of_lt hgt
        rw [List.getElem?_append_right hle] at hi
        obtain ⟨k, hk⟩ : ∃ k, i - a.length = k + 1 :=
          ⟨i - a.length - 1, by omega⟩
        rw [hk] at hi
        simp only [List.getElem?_cons_succ] at hi
        obtain ⟨j, pre, seg, post, o', o₂', hdec, hseg, hieq, hjeq⟩ := ihb k o hi
        refine ⟨a.length + 2 + j, .jumpForward o₁ :: a ++ .jumpBackwards o₂ :: pre,
          seg, post, o', o₂', ?_, hseg, ?_, ?_⟩
        · simp [hdec, List.append_assoc]
        · simp only [List.length_cons, List.length_append]
          omega
        · simp only [List.length_cons, List.length_append]
          omega

theorem matchAt_of_balanced_jb {l : List BrainfuckInstruction} (hb : Balanced l) :
    ∀ (i o : Nat), l[i]? = some (.jumpBackwards o) → ∃ j, MatchAt l j i := by
  induction hb with
  | nil => intro i o hi; simp at hi
  | other i₀ a h1 h2 _ ih =>
    intro i o hi
    cases i with
    | zero =>
      simp only [List.getElem?_cons_zero, Option.some_inj] at hi
      subst hi
      simp [BrainfuckInstruction.isJumpB] at h2
    | succ i =>
      simp only [List.getElem?_cons_succ] at hi
      obtain ⟨j, pre, seg, post, o', o₂, heq, hseg, hjeq, hieq⟩ := ih i o hi
      refine ⟨j + 1, i₀ :: pre, seg, post, o', o₂, ?_, hseg, ?_, ?_⟩
      · simp [heq]
      · simp [hjeq]
      · simp only [List.length_cons]; omega
  | bracket o₁ o₂ a b _ hbb iha ihb =>
    intro i o hi
    cases i with
    | zero => simp at hi
    | succ i =>
      simp only [List.cons_append, List.getElem?_cons_succ] at hi
      rcases Nat.lt_trichotomy i a.length with hlt | heq | hgt
      · rw [List.getElem?_append_left hlt] at hi
        obtain ⟨j, pre, seg, post, o', o₂', hdec, hseg, hjeq, hieq⟩ := iha i o hi
        refine ⟨j + 1, .jumpForward o₁ :: pre, seg, post ++ .jumpBackwards o₂ :: b,
          o', o₂', ?_, hseg, ?_, ?_⟩
        · simp [hdec, List.append_assoc]
        · simp [hjeq]
        · simp only [List.length_cons]; omega
      · subst heq
        refine ⟨0, [], a, b, o₁, o₂, by simp, by assumption, by simp, by simp⟩
      · have hle : a.length ≤ i := Nat.le_of_lt hgt
        rw [List.getElem?_append_right hle] at hi
        obtain ⟨k, hk⟩ : ∃ k, i - a.length = k + 1 :=
          ⟨i - a.length - 1, by omega⟩
        rw [hk] at hi
        simp only [List.getElem?_cons_succ] at hi
        obtain ⟨j, pre, seg, post, o', o₂', hdec, hseg, hjeq, hieq⟩ := ihb k o hi
        refine ⟨a.length + 2 + j, .jumpForward o₁ :: a ++ .jumpBackwards o₂ :: pre,
          seg, post, o', o₂', ?_, hseg, ?_, ?_⟩
        · simp [hdec, List.append_assoc]
        · simp only [List.length_cons, List.length_append]
          omega
        · simp only [List.length_cons, List.length_append]
          omega

theorem findOpenerAux_revBal_append {a : List BrainfuckInstruction}
    (hb : RevBal a) :
    ∀ (rest : List BrainfuckInstruction) (off cl : Nat),
      findOpenerAux (a ++ rest) off cl = findOpenerAux rest (off + a.length) cl := by
  induction hb with
  | nil => intro rest off cl; simp
  | other i l h1 h2 _ ih =>
    intro rest off cl
    rw [List.cons_append, findOpenerAux_cons_other i h1 h2, ih]
    congr 1
    simp only [List.length_cons]
    omega
  | bracket o₁ o₂ l m _ _ ihl ihm =>
    intro rest off cl
    have hshape :
        (BrainfuckInstruction.jumpBackwards o₁ :: l ++ .jumpForward o₂ :: m) ++ rest =
          .jumpBackwards o₁ :: (l ++ .jumpForward o₂ :: (m ++ rest)) := by
      simp [List.append_assoc]
    rw [hshape, findOpenerAux_cons_jb, ihl, findOpenerAux_cons_jf_succ, ihm]
    congr 1
    simp only [List.length_cons, List.length_append]
    omega

theorem find_closer_of_matchAt {instrs : List BrainfuckInstruction} {i j : Nat}
    {spans : List Span} (hspans : spans.map Span.instruction = instrs)
    (h : MatchAt instrs i j) : find_closer i spans = .ok (j + 1 - i) := by
  obtain ⟨pre, seg, post, o, o₂, hdec, hseg, hieq, hjeq⟩ := h
  have hsplit : instrs = (pre ++ [.jumpForward o]) ++ (seg ++ .jumpBackwards o₂ :: post) := by
    simp [hdec, List.append_assoc]
  have hdrop : (spans.drop (i + 1)).map Span.instruction =
      seg ++ .jumpBackwards o₂ :: post := by
    rw [List.map_drop, hspans, hsplit, List.drop_left']
    simp [hieq]
  rw [find_closer, hdrop, findCloserAux_balanced_append hseg,
    findCloserAux_cons_jb_zero]
  have : seg.length + 2 = j + 1 - i := by omega
  simp [this]

theorem find_opener_of_matchAt {instrs : List BrainfuckInstruction} {i j : Nat}
    {spans : List Span} (hspans : spans.map Span.instruction = instrs)
    (h : MatchAt instrs j i) : find_opener i spans = .ok (i - j - 1) := by
  obtain ⟨pre, seg, post, o, o₂, hdec, hseg, hjeq, hieq⟩ := h
  have hsplit : instrs = (pre ++ .jumpForward o :: seg) ++ (.jumpBackwards o₂ :: post) := by
    simp [hdec, List.append_assoc]
  have htake : ((spans.take i).map Span.instruction).reverse =
      seg.reverse ++ .jumpForward o :: pre.reverse := by
    rw [List.map_take, hspans, hsplit, List.take_left']
    · simp [List.reverse_append, List.append_assoc]
    · simp; omega
  rw [find_opener, htake,
    findOpenerAux_revBal_append (revBal_reverse_of_balanced hseg),
    findOpenerAux_cons_jf_zero]
  have : seg.length = i - j - 1 := by omega
  simp [this]

theorem findOpenerAux_some :
    ∀ (l : List BrainfuckInstruction) (off cl r : Nat),
      findOpenerAux l off cl = some r →
      ∃ a o rest, l = a ++ .jumpForward o :: rest ∧ Consume cl a ∧
        r = off + a.length
  | [], off, cl, r => by intro h; simp [findOpenerAux] at h
  | i :: tl, off, cl, r => by
    intro h
    cases i
    case jumpForward o =>
      cases cl with
      | zero =>
        rw [findOpenerAux_cons_jf_zero] at h
        refine ⟨[], o, tl, by simp, Consume.nil, ?_⟩
        simp only [Option.some_inj] at h
        simp [h]
      | succ cl =>
        rw [findOpenerAux_cons_jf_succ] at h
        obtain ⟨a, o', rest, heq, hcons, hr⟩ := findOpenerAux_some tl (off + 1) cl r h
        exact ⟨.jumpForward o :: a, o', rest, by simp [heq],
          Consume.jf o cl a hcons, by simp only [List.length_cons]; omega⟩
    case jumpBackwards o =>
      rw [findOpenerAux_cons_jb] at h
      obtain ⟨a, o', rest, heq, hcons, hr⟩ := findOpenerAux_some tl (off + 1) (cl + 1) r h
      exact ⟨.jumpBackwards o :: a, o', rest, by simp [heq],
        Consume.jb o cl a hcons, by simp only [List.length_cons]; omega⟩
    all_goals {
      simp only [findOpenerAux] at h
      obtain ⟨a, o', rest, heq, hcons, hr⟩ := findOpenerAux_some tl (off + 1) cl r h
      subst heq
      refine ⟨_ :: a, o', rest, rfl, Consume.other _ cl a ?_ ?_ hcons, ?_⟩
      · rfl
      · rfl
      · simp only [List.length_cons]; omega
    }

theorem consStruct_of_consume {cl : Nat} {a : List BrainfuckInstruction}
    (h : Consume cl a) : ConsStruct cl a := by
  induction h with
  | nil => exact RevBal.nil
  | jb o cl a _ ih =>
    obtain ⟨b, o', c, heq, hb, hc⟩ := ih
    cases cl with
    | zero =>
      subst heq
      exact RevBal.bracket o o' b c hb hc
    | succ cl =>
      obtain ⟨d, o'', e, heqc, hd, he⟩ := hc
      refine ⟨.jumpBackwards o :: b ++ .jumpForward o' :: d, o'', e, ?_, ?_, he⟩
      · subst heq; subst heqc; simp [List.append_assoc]
      · exact RevBal.bracket o o' b d hb hd
  | jf o cl a _ ih => exact ⟨[], o, a, rfl, RevBal.nil, ih⟩
  | other i cl a h1 h2 _ ih =>
    cases cl with
    | zero => exact RevBal.other i a h1 h2 ih
    | succ cl =>
      obtain ⟨b, o', c, heq, hb, hc⟩ := ih
      exact ⟨i :: b, o', c, by simp [heq], RevBal.other i b h1 h2 hb, hc⟩

theorem isJumpF_eq_true_iff (i : BrainfuckInstruction) :
    i.isJumpF = true ↔ ∃ o, i = .jumpForward o := by
  cases i <;> simp [BrainfuckInstruction.isJumpF]

theorem isJumpB_eq_true_iff (i : BrainfuckInstruction) :
    i.isJumpB = true ↔ ∃ o, i = .jumpBackwards o := by
  cases i <;> simp [BrainfuckInstruction.isJumpB]

theorem resolveSpans_nil (clone : List Span) (b : Nat) :
    resolveSpans clone b [] = .ok [] := rfl

theorem resolveSpans_cons_jf (clone : List Span) (b : Nat) (s : Span)
    (rest : List Span) (o : Nat) (h : s.instruction = .jumpForward o) :
    resolveSpans clone b (s :: rest) =
      match find_closer b clone with
      | .error e => .error e
      | .ok off =>
        match resolveSpans clone (b + 1) rest with
        | .error e => .error e
        | .ok rs => .ok ({ s with instruction := .jumpForward off } :: rs) := by
  obtain ⟨ins, tx, ln, ch⟩ := s
  dsimp only at h
  subst h
  rfl

theorem resolveSpans_cons_jb (clone : List Span) (b : Nat) (s : Span)
    (rest : List Span) (o : Nat) (h : s.instruction = .jumpBackwards o) :
    resolveSpans clone b (s :: rest) =
      match find_opener b clone with
      | .error e => .error e
      | .ok off =>
        match resolveSpans clone (b + 1) rest with
        | .error e => .error e
        | .ok rs => .ok ({ s with instruction := .jumpBackwards off } :: rs) := by
  obtain ⟨ins, tx, ln, ch⟩ := s
  dsimp only at h
  subst h
  rfl

theorem resolveSpans_cons_other (clone : List Span) (b : Nat) (s : Span)
    (rest : List Span) (h1 : s.instruction.isJumpF = false)
    (h2 : s.instruction.isJumpB = false) :
    resolveSpans clone b (s :: rest) =
      match resolveSpans clone (b + 1) rest with
      | .error e => .error e
      | .ok rs => .ok (s :: rs) := by
  obtain ⟨ins, tx, ln, ch⟩ := s
  dsimp only at h1 h2
  cases ins
  case jumpForward o => simp [BrainfuckInstruction.isJumpF] at h1
  case jumpBackwards o => simp [BrainfuckInstruction.isJumpB] at h2
  all_goals rfl

theorem resolveSpans_ok_spec (clone : List Span) :
    ∀ (l : List Span) (b : Nat) (r : List Span),
      resolveSpans clone b l = .ok r →
      r.length = l.length ∧
      ∀ k s, l[k]? = some s →
        (∀ o, s.instruction = .jumpForward o →
          ∃ off, find_closer (b + k) clone = .ok off ∧
            r[k]? = some { s with instruction := .jumpForward off }) ∧
        (∀ o, s.instruction = .jumpBackwards o →
          ∃ off, find_opener (b + k) clone = .ok off ∧
            r[k]? = some { s with instruction := .jumpBackwards off }) ∧
        (s.instruction.isJumpF = false → s.instruction.isJumpB = false →
          r[k]? = some s)
  | [], b, r => by
    intro h
    rw [resolveSpans_nil] at h
    simp only [Except.ok.injEq] at h
    subst h
    refine ⟨rfl, ?_⟩
    intro k s hk
    simp at hk
  | s₀ :: rest, b, r => by
    intro h
    by_cases hf : s₀.instruction.isJumpF = true
    · obtain ⟨o₀, hins⟩ := (isJumpF_eq_true_iff _).mp hf
      rw [resolveSpans_cons_jf clone b s₀ rest o₀ hins] at h
      cases hfc : find_closer b clone with
      | error e => rw [hfc] at h; simp at h
      | ok off =>
        rw [hfc] at h
        cases hrest : resolveSpans clone (b + 1) rest with
        | error e => rw [hrest] at h; simp at h
        | ok rs =>
          rw [hrest] at h
          simp only [Except.ok.injEq] at h
          subst h
          obtain ⟨hlen, hspec⟩ := resolveSpans_ok_spec clone rest (b + 1) rs hrest
          refine ⟨by simp [hlen], ?_⟩
          intro k s hk
          cases k with
          | zero =>
            simp only [List.getElem?_cons_zero, Option.some_inj] at hk
            subst hk
            refine ⟨?_, ?_, ?_⟩
            · intro o ho
              exact ⟨off, by simpa using hfc, by simp⟩
            · intro o ho
              rw [hins] at ho
              simp at ho
            · intro hg1 _
              rw [hins] at hg1
              simp [BrainfuckInstruction.isJumpF] at hg1
          | succ k =>
            simp only [List.getElem?_cons_succ] at hk
            have hres := hspec k s hk
            have hbk : b + (k + 1) = b + 1 + k := by omega
            rw [hbk]
            simpa using hres
    · by_cases hbb : s₀.instruction.isJumpB = true
      · obtain ⟨o₀, hins⟩ := (isJumpB_eq_true_iff _).mp hbb
        rw [resolveSpans_cons_jb clone b s₀ rest o₀ hins] at h
        cases hfc : find_opener b clone with
        | error e => rw [hfc] at h; simp at h
        | ok off =>
          rw [hfc] at h
          cases hrest : resolveSpans clone (b + 1) rest with
          | error e => rw [hrest] at h; simp at h
          | ok rs =>
            rw [hrest] at h
            simp only [Except.ok.injEq] at h
            subst h
            obtain ⟨hlen, hspec⟩ := resolveSpans_ok_spec clone rest (b + 1) rs hrest
            refine ⟨by simp [hlen], ?_⟩
            intro k s hk
            cases k with
            | zero =>
              simp only [List.getElem?_cons_zero, Option.some_inj] at hk
              subst hk
              refine ⟨?_, ?_, ?_⟩
              · intro o ho
                rw [hins] at ho
                simp at ho
              · intro o ho
                exact ⟨off, by simpa using hfc, by simp⟩
              · intro _ hg2
                rw [hins] at hg2
                simp [BrainfuckInstruction.isJumpB] at hg2
            | succ k =>
              simp only [List.getElem?_cons_succ] at hk
              have hres := hspec k s hk
              have hbk : b + (k + 1) = b + 1 + k := by omega
              rw [hbk]
              simpa using hres
      · have hg1 : s₀.instruction.isJumpF = false := by
          simpa using hf
        have hg2 : s₀.instruction.isJumpB = false := by
          simpa using hbb
        rw [resolveSpans_cons_other clone b s₀ rest hg1 hg2] at h
        cases hrest : resolveSpans clone (b + 1) rest with
        | error e => rw [hrest] at h; simp at h
        | ok rs =>
          rw [hrest] at h
          simp only [Except.ok.injEq] at h
          subst h
          obtain ⟨hlen, hspec⟩ := resolveSpans_ok_spec clone rest (b + 1) rs hrest
          refine ⟨by simp [hlen], ?_⟩
          intro k s hk
          cases k with
          | zero =>
            simp only [List.getElem?_cons_zero, Option.some_inj] at hk
            subst hk
            refine ⟨?_, ?_, ?_⟩
            · intro o ho
              rw [ho] at hg1
              simp [BrainfuckInstruction.isJumpF] at hg1
            · intro o ho
              rw [ho] at hg2
              simp [BrainfuckInstruction.isJumpB] at hg2
            · intro _ _
              simp
          | succ k =>
            simp only [List.getElem?_cons_succ] at hk
            have hres := hspec k s hk
            have hbk : b + (k + 1) = b + 1 + k := by omega
            rw [hbk]
            simpa using hres

theorem resolveSpans_ok_of_success (clone : List Span) :
    ∀ (l : List Span) (b : Nat),
      (∀ k s, l[k]? = some s →
        (∀ o, s.instruction = .jumpForward o →
          ∃ off, find_closer (b + k) clone = .ok off) ∧
        (∀ o, s.instruction = .jumpBackwards o →
          ∃ off, find_opener (b + k) clone = .ok off)) →
      ∃ r, resolveSpans clone b l = .ok r
  | [], b => fun _ => ⟨[], rfl⟩
  | s₀ :: rest, b => by
    intro hall
    obtain ⟨rs, hrs⟩ : ∃ r, resolveSpans clone (b + 1) rest = .ok r := by
      apply resolveSpans_ok_of_success clone rest (b + 1)
      intro k s hk
      have hres := hall (k + 1) s (by simpa using hk)
      have hbk : b + (k + 1) = b + 1 + k := by omega
      rwa [hbk] at hres
    by_cases hf : s₀.instruction.isJumpF = true
    · obtain ⟨o₀, hins⟩ := (isJumpF_eq_true_iff _).mp hf
      obtain ⟨off, hoff⟩ := (hall 0 s₀ (by simp)).1 o₀ hins
      rw [resolveSpans_cons_jf clone b s₀ rest o₀ hins]
      rw [show b + 0 = b from rfl] at hoff
      rw [hoff, hrs]
      exact ⟨_, rfl⟩
    · by_cases hbb : s₀.instruction.isJumpB = true
      · obtain ⟨o₀, hins⟩ := (isJumpB_eq_true_iff _).mp hbb
        obtain ⟨off, hoff⟩ := (hall 0 s₀ (by simp)).2 o₀ hins
        rw [resolveSpans_cons_jb clone b s₀ rest o₀ hins]
        rw [show b + 0 = b from rfl] at hoff
        rw [hoff, hrs]
        exact ⟨_, rfl⟩
      · rw [resolveSpans_cons_other clone b s₀ rest (by simpa using hf)
          (by simpa using hbb), hrs]
        exact ⟨_, rfl⟩

theorem compile_eq {T : Type} (input : List Char) (tape : T) :
    compile input tape =
      match resolveSpans (parseSpans input) 0 (parseSpans input) with
      | .error e => .error e
      | .ok resolved =>
        .ok { instruction_pointer := 0
              data_pointer := 0
              instructions := resolved.map Span.instruction
              tape := tape } := rfl

theorem compile_ok_iff {T : Type} (input : List Char) (tape : T)
    (p : BrainfuckProgram T) :
    compile input tape = .ok p ↔
      ∃ r, resolveSpans (parseSpans input) 0 (parseSpans input) = .ok r ∧
        p = ⟨0, 0, r.map Span.instruction, tape⟩ := by
  rw [compile_eq]
  cases hres : resolveSpans (parseSpans input) 0 (parseSpans input) with
  | error e =>
    dsimp only
    constructor
    · intro h
      exact Except.noConfusion h
    · rintro ⟨r, hr, _⟩
      exact Except.noConfusion hr
  | ok r =>
    dsimp only
    constructor
    · intro h
      exact ⟨r, rfl, (Except.ok.inj h).symm⟩
    · rintro ⟨r', hr', rfl⟩
      rw [Except.ok.inj hr']

theorem MatchAt.lt {l : List BrainfuckInstruction} {i j : Nat}
    (h : MatchAt l i j) : i < j := by
  obtain ⟨pre, seg, post, o, o₂, _, _, hi, hj⟩ := h
  omega

theorem compiled_jb_spec {T : Type} {input : List Char} {tape : T}
    {p : BrainfuckProgram T} (hc : compile input tape = .ok p)
    {i o : Nat} (hi : p.instructions[i]? = some (.jumpBackwards o)) :
    ∃ j, MatchAt (parseInstrs input) j i ∧ o = i - j - 1 ∧ j + 1 ≤ i := by
  obtain ⟨r, hres, rfl⟩ := (compile_ok_iff input tape p).mp hc
  simp only [List.getElem?_map] at hi
  obtain ⟨s', hs', hins'⟩ := Option.map_eq_some'.mp hi
  obtain ⟨hlen, hspec⟩ := resolveSpans_ok_spec _ _ _ _ hres
  have hilen : i < (parseSpans input).length := by
    have h1 := (List.getElem?_eq_some_iff.mp hs').1
    omega
  obtain ⟨s, hs⟩ : ∃ s, (parseSpans input)[i]? = some s :=
    ⟨_, List.getElem?_eq_getElem hilen⟩
  have htrip := hspec i s hs
  by_cases hf : s.instruction.isJumpF = true
  · obtain ⟨o₀, hins⟩ := (isJumpF_eq_true_iff _).mp hf
    obtain ⟨off, _, hrk⟩ := htrip.1 o₀ hins
    rw [hs'] at hrk
    simp only [Option.some_inj] at hrk
    rw [hrk] at hins'
    simp at hins'
  by_cases hbb : s.instruction.isJumpB = true
  case neg =>
    have htr := htrip.2.2 (by simpa using hf) (by simpa using hbb)
    rw [hs'] at htr
    simp only [Option.some_inj] at htr
    subst htr
    rw [hins'] at hbb
    simp [BrainfuckInstruction.isJumpB] at hbb
  obtain ⟨o₀, hins⟩ := (isJumpB_eq_true_iff _).mp hbb
  obtain ⟨off, hfo, hrk⟩ := htrip.2.1 o₀ hins
  rw [hs'] at hrk
  simp only [Option.some_inj] at hrk
  rw [hrk] at hins'
  have hoff : off = o := by
    simpa using hins'
  subst hoff
  rw [Nat.zero_add, find_opener] at hfo
  cases hfoa : findOpenerAux (((parseSpans input).take i).map Span.instruction).reverse 0 0 with
  | none => rw [hfoa] at hfo; simp at hfo
  | some k =>
    rw [hfoa] at hfo
    simp only [Except.ok.injEq] at hfo
    subst hfo
    have hmt : ((parseSpans input).take i).map Span.instruction =
        (parseInstrs input).take i := by
      rw [List.map_take]; rfl
    rw [hmt] at hfoa
    obtain ⟨a, o', rest, hdec, hcons, hr0⟩ :=
      findOpenerAux_some _ _ _ _ hfoa
    have hrb : RevBal a := consStruct_of_consume hcons
    have hbseg : Balanced a.reverse := balanced_reverse_of_revBal hrb
    have hinstrs_len : (parseInstrs input).length = (parseSpans input).length := by
      simp [parseInstrs]
    have htakelen : ((parseInstrs input).take i).length = i := by
      simp only [List.length_take]
      omega
    have htake : (parseInstrs input).take i =
        (rest.reverse ++ [.jumpForward o']) ++ a.reverse := by
      have := congrArg List.reverse hdec
      simpa [List.reverse_append, List.append_assoc] using this
    have hatarget : (parseInstrs input)[i]? = some (.jumpBackwards o₀) := by
      rw [parseInstrs, List.getElem?_map, hs]
      simp [hins]
    have hdrop : (parseInstrs input).drop i =
        .jumpBackwards o₀ :: (parseInstrs input).drop (i + 1) := by
      have hil : i < (parseInstrs input).length := by omega
      rw [List.drop_eq_getElem_cons hil]
      obtain ⟨h', he⟩ := List.getElem?_eq_some_iff.mp hatarget
      rw [he]
    have hlens : rest.length + 1 + a.length = i := by
      have := congrArg List.length htake
      simp at this
      omega
    refine ⟨rest.length, ⟨rest.reverse, a.reverse, (parseInstrs input).drop (i + 1),
      o', o₀, ?_, hbseg, by simp, by simp; omega⟩, by omega, by omega⟩
    conv_lhs => rw [← List.take_append_drop i (parseInstrs input), htake, hdrop]
    simp [List.append_assoc]

theorem compile_balanced_spec {T : Type} (input : List Char) (tape : T)
    (hb : Balanced (parseInstrs input)) :
    ∃ p, compile input tape = .ok p ∧
      p.instructions.length = (parseInstrs input).length ∧
      ∀ i o, p.instructions[i]? = some (.jumpForward o) →
        ∃ j, MatchAt (parseInstrs input) i j ∧ o = j + 1 - i ∧ i < j := by
  obtain ⟨r, hres⟩ :
      ∃ r, resolveSpans (parseSpans input) 0 (parseSpans input) = .ok r := by
    apply resolveSpans_ok_of_success
    intro k s hk
    constructor
    · intro o hins
      have hik : (parseInstrs input)[k]? = some (.jumpForward o) := by
        rw [parseInstrs, List.getElem?_map, hk]
        simp [hins]
      obtain ⟨j, hm⟩ := matchAt_of_balanced_jf hb k o hik
      refine ⟨j + 1 - k, ?_⟩
      rw [Nat.zero_add]
      exact find_closer_of_matchAt rfl hm
    · intro o hins
      have hik : (parseInstrs input)[k]? = some (.jumpBackwards o) := by
        rw [parseInstrs, List.getElem?_map, hk]
        simp [hins]
      obtain ⟨j, hm⟩ := matchAt_of_balanced_jb hb k o hik
      refine ⟨k - j - 1, ?_⟩
      rw [Nat.zero_add]
      exact find_opener_of_matchAt rfl hm
  obtain ⟨hlen, hspec⟩ := resolveSpans_ok_spec _ _ _ _ hres
  refine ⟨⟨0, 0, r.map Span.instruction, tape⟩,
    (compile_ok_iff _ _ _).mpr ⟨r, hres, rfl⟩, by simp [parseInstrs, hlen], ?_⟩
  intro i o hi
  simp only [List.getElem?_map] at hi
  obtain ⟨s', hs', hins'⟩ := Option.map_eq_some'.mp hi
  have hilen : i < (parseSpans input).length := by
    have h1 := (List.getElem?_eq_some_iff.mp hs').1
    omega
  obtain ⟨s, hs⟩ : ∃ s, (parseSpans input)[i]? = some s :=
    ⟨_, List.getElem?_eq_getElem hilen⟩
  have htrip := hspec i s hs
  by_cases hbb : s.instruction.isJumpB = true
  · obtain ⟨o₀, hins⟩ := (isJumpB_eq_true_iff _).mp hbb
    obtain ⟨off, _, hrk⟩ := htrip.2.1 o₀ hins
    rw [hs'] at hrk
    simp only [Option.some_inj] at hrk
    rw [hrk] at hins'
    simp at hins'
  by_cases hf : s.instruction.isJumpF = true
  case neg =>
    have htr := htrip.2.2 (by simpa using hf) (by simpa using hbb)
    rw [hs'] at htr
    simp only [Option.some_inj] at htr
    subst htr
    rw [hins'] at hf
    simp [BrainfuckInstruction.isJumpF] at hf
  obtain ⟨o₀, hins⟩ := (isJumpF_eq_true_iff _).mp hf
  obtain ⟨off, hfc, hrk⟩ := htrip.1 o₀ hins
  rw [hs'] at hrk
  simp only [Option.some_inj] at hrk
  rw [hrk] at hins'
  have hoff : off = o := by simpa using hins'
  subst hoff
  have hik : (parseInstrs input)[i]? = some (.jumpForward o₀) := by
    rw [parseInstrs, List.getElem?_map, hs]
    simp [hins]
  obtain ⟨j, hm⟩ := matchAt_of_balanced_jf hb i o₀ hik
  have hfc2 : find_closer i (parseSpans input) = .ok (j + 1 - i) :=
    find_closer_of_matchAt rfl hm
  rw [Nat.zero_add] at hfc
  rw [hfc] at hfc2
  simp only [Except.ok.injEq] at hfc2
  exact ⟨j, hm, hfc2, hm.lt⟩

/-! Step-level lemmas. -/

theorem vecGrow_eq_of_lt {D : Type} (td : TapeData D) {t : List D} {i : Nat}
    (h : i < t.length) : vecGrow td t i = t := by
  simp [vecGrow, Nat.not_le.mpr h]

theorem lt_length_vecGrow {D : Type} (td : TapeData D) (t : List D) (i : Nat) :
    i < (vecGrow td t i).length := by
  by_cases h : t.length ≤ i
  · simp only [vecGrow, if_pos h, List.length_append, List.length_replicate]
    omega
  · simp only [vecGrow, if_neg h]
    omega

theorem step_vec_halted {D : Type} [DecidableEq D] (td : TapeData D)
    (p : BrainfuckProgram (List D)) (inp : Nat → D) (n : Nat)
    (hip : p.instructions.length ≤ p.instruction_pointer) :
    step td (vecOps td) p inp n =
      some ⟨true, { p with tape := vecGrow td p.tape p.data_pointer }, [], n⟩ := by
  have hnone : p.instructions[p.instruction_pointer]? = none :=
    List.getElem?_eq_none hip
  simp [step, vecOps, vecGetDataAtMut, hnone]

theorem step_arr_halted {D : Type} [DecidableEq D] (td : TapeData D)
    (p : BrainfuckProgram (List D)) (inp : Nat → D) (n : Nat)
    (hip : p.instructions.length ≤ p.instruction_pointer)
    (hdp : p.data_pointer < p.tape.length) :
    step td (arrOps td) p inp n = some ⟨true, p, [], n⟩ := by
  have hnone : p.instructions[p.instruction_pointer]? = none :=
    List.getElem?_eq_none hip
  simp [step, arrOps, arrGetDataAtMut, hdp, hnone]

theorem step_arr_fault {D : Type} [DecidableEq D] (td : TapeData D)
    (p : BrainfuckProgram (List D)) (inp : Nat → D) (n : Nat)
    (hdp : p.tape.length ≤ p.data_pointer) :
    step td (arrOps td) p inp n = none := by
  simp [step, arrOps, arrGetDataAtMut, Nat.not_lt.mpr hdp]

theorem step_vec_total {D : Type} [DecidableEq D] (td : TapeData D)
    (p : BrainfuckProgram (List D)) (inp : Nat → D) (n : Nat) :
    ∃ e, step td (vecOps td) p inp n = some e ∧
      p.data_pointer < e.prog.tape.length := by
  have hgrow := lt_length_vecGrow td p.tape p.data_pointer
  rcases hip : p.instructions[p.instruction_pointer]? with _ | instr
  · simp only [step, vecOps, vecGetDataAtMut, hip]
    exact ⟨_, rfl, hgrow⟩
  · cases instr
    all_goals simp only [step, vecOps, vecGetDataAtMut, hip]
    case jumpForward o =>
      split
      · exact ⟨_, rfl, hgrow⟩
      · exact ⟨_, rfl, hgrow⟩
    case jumpBackwards o =>
      split
      · exact ⟨_, rfl, hgrow⟩
      · exact ⟨_, rfl, hgrow⟩
    all_goals
      exact ⟨_, rfl, by
        first
        | exact hgrow
        | (simp only [List.length_set]; exact hgrow)⟩

theorem u8Data_zero : u8Data.zero = 0 := rfl

theorem step_vec_jf_taken {instrs : List BrainfuckInstruction} {i o : Nat}
    (hi : instrs[i]? = some (.jumpForward o)) (dp : Nat) (t : List Nat)
    (inp : Nat → Nat) (n : Nat)
    (hv : (vecGrow u8Data t dp).getD dp 0 = 0) :
    step u8Data (vecOps u8Data) ⟨i, dp, instrs, t⟩ inp n =
      some ⟨false, ⟨i + o, dp, instrs, vecGrow u8Data t dp⟩, [], n⟩ := by
  rw [List.getD_eq_getElem?_getD] at hv
  simp [step, vecOps, vecGetDataAtMut, hi, u8Data_zero, hv]

theorem step_vec_jb_taken {instrs : List BrainfuckInstruction} {i o : Nat}
    (hi : instrs[i]? = some (.jumpBackwards o)) (dp : Nat) (t : List Nat)
    (inp : Nat → Nat) (n : Nat)
    (hv : (vecGrow u8Data t dp).getD dp 0 ≠ 0) :
    step u8Data (vecOps u8Data) ⟨i, dp, instrs, t⟩ inp n =
      some ⟨false, ⟨i - o, dp, instrs, vecGrow u8Data t dp⟩, [], n⟩ := by
  rw [List.getD_eq_getElem?_getD] at hv
  simp [step, vecOps, vecGetDataAtMut, hi, u8Data_zero, hv]

/-! Claim theorems. -/

/-- C1 counterexample.  The claim says a resolved jump-backward offset equals
the distance from its own index back to its matching jump-forward's index, and
that a taken backward jump lands on the matching jump-forward.  In the program
compiled from the three-character source left-bracket, plus, right-bracket,
the jump-backward at index 2 matches the jump-forward at index 0, so the claim
predicts offset 2 - 0 = 2 and a landing index of 0; the code stores offset 1,
and a taken backward jump from index 2 lands at instruction pointer 1. -/
theorem C1_counterexample :
    compile "[+]".toList ([] : List Nat) =
      .ok ⟨0, 0, [.jumpForward 3, .increaseData, .jumpBackwards 1], []⟩ ∧
    (1 : Nat) ≠ 2 - 0 ∧
    step u8Data (vecOps u8Data)
        ⟨2, 0, [.jumpForward 3, .increaseData, .jumpBackwards 1], [1]⟩ zeroInput 0 =
      some ⟨false, ⟨1, 0, [.jumpForward 3, .increaseData, .jumpBackwards 1], [1]⟩, [], 0⟩ ∧
    (1 : Nat) ≠ 0 :=
  ⟨rfl, by decide, rfl, by decide⟩

/-- C1 amended: in every successfully compiled program, the resolved offset of
a jump-backward at index i is one less than the distance back to its matching
jump-forward at index j (offset + 1 = i - j), so a taken backward jump sets
the instruction pointer to j + 1, one past the matching jump-forward. -/
theorem C1_amended_backward_jump {T : Type} (input : List Char) (tape : T)
    (p : BrainfuckProgram T) (i o : Nat)
    (hc : compile input tape = .ok p)
    (hi : p.instructions[i]? = some (.jumpBackwards o)) :
    ∃ j, MatchAt (parseInstrs input) j i ∧ o + 1 = i - j ∧
      ∀ (dp : Nat) (t : List Nat) (inp : Nat → Nat) (n : Nat),
        (vecGrow u8Data t dp).getD dp 0 ≠ 0 →
        step u8Data (vecOps u8Data) ⟨i, dp, p.instructions, t⟩ inp n =
          some ⟨false, ⟨j + 1, dp, p.instructions, vecGrow u8Data t dp⟩, [], n⟩ := by
  obtain ⟨j, hm, ho, hji⟩ := compiled_jb_spec hc hi
  refine ⟨j, hm, by omega, ?_⟩
  intro dp t inp n hv
  have hstep := step_vec_jb_taken hi dp t inp n hv
  have hip : i - o = j + 1 := by omega
  rw [hip] at hstep
  exact hstep

/-- C1 witness: the amended statement instantiated on the compiled program of
the three-character source left-bracket, plus, right-bracket, at the
jump-backward of index 2 with stored offset 1. -/
theorem C1_amended_witness :
    ∃ j, MatchAt (parseInstrs "[+]".toList) j 2 ∧ 1 + 1 = 2 - j ∧
      ∀ (dp : Nat) (t : List Nat) (inp : Nat → Nat) (n : Nat),
        (vecGrow u8Data t dp).getD dp 0 ≠ 0 →
        step u8Data (vecOps u8Data)
            ⟨2, dp, [.jumpForward 3, .increaseData, .jumpBackwards 1], t⟩ inp n =
          some ⟨false, ⟨j + 1, dp, [.jumpForward 3, .increaseData, .jumpBackwards 1],
            vecGrow u8Data t dp⟩, [], n⟩ :=
  C1_amended_backward_jump "[+]".toList ([] : List Nat)
    ⟨0, 0, [.jumpForward 3, .increaseData, .jumpBackwards 1], []⟩ 2 1 rfl rfl

/-- C2: for every well-bracketed source text (the recognized bracket sequence
is properly nested), compilation succeeds, every jump-forward's resolved
offset equals the distance from its own index to one past its matching
jump-backward's index, and executing that jump-forward on a zero cell sets the
instruction pointer to exactly one past the matching jump-backward. -/
theorem C2_forward_resolution {T : Type} (input : List Char) (tape : T)
    (hb : Balanced (parseInstrs input)) :
    ∃ p, compile input tape = .ok p ∧
      ∀ i o, p.instructions[i]? = some (.jumpForward o) →
        ∃ j, MatchAt (parseInstrs input) i j ∧ o = j + 1 - i ∧
          ∀ (dp : Nat) (t : List Nat) (inp : Nat → Nat) (n : Nat),
            (vecGrow u8Data t dp).getD dp 0 = 0 →
            step u8Data (vecOps u8Data) ⟨i, dp, p.instructions, t⟩ inp n =
              some ⟨false, ⟨j + 1, dp, p.instructions, vecGrow u8Data t dp⟩, [], n⟩ := by
  obtain ⟨p, hcomp, _, hall⟩ := compile_balanced_spec input tape hb
  refine ⟨p, hcomp, ?_⟩
  intro i o hi
  obtain ⟨j, hm, ho, hij⟩ := hall i o hi
  refine ⟨j, hm, ho, ?_⟩
  intro dp t inp n hv
  have hstep := step_vec_jf_taken hi dp t inp n hv
  have hip : i + o = j + 1 := by omega
  rw [hip] at hstep
  exact hstep

/-- C2 witness: the statement instantiated on the well-bracketed
three-character source left-bracket, plus, right-bracket. -/
theorem C2_forward_resolution_witness :
    Balanced (parseInstrs "[+]".toList) ∧
    ∃ p, compile "[+]".toList ([] : List Nat) = .ok p ∧
      ∀ i o, p.instructions[i]? = some (.jumpForward o) →
        ∃ j, MatchAt (parseInstrs "[+]".toList) i j ∧ o = j + 1 - i ∧
          ∀ (dp : Nat) (t : List Nat) (inp : Nat → Nat) (n : Nat),
            (vecGrow u8Data t dp).getD dp 0 = 0 →
            step u8Data (vecOps u8Data) ⟨i, dp, p.instructions, t⟩ inp n =
              some ⟨false, ⟨j + 1, dp, p.instructions, vecGrow u8Data t dp⟩, [], n⟩ := by
  have hbal : Balanced (parseInstrs "[+]".toList) := by
    have he : parseInstrs "[+]".toList =
        [.jumpForward 0, .increaseData, .jumpBackwards 0] := rfl
    rw [he]
    exact Balanced.bracket 0 0 [.increaseData] []
      (Balanced.other _ _ rfl rfl Balanced.nil) Balanced.nil
  exact ⟨hbal, C2_forward_resolution "[+]".toList ([] : List Nat) hbal⟩

/-- C3: in every successfully compiled program, the resolved offset of the
jump-backward at index i equals i minus the matching jump-forward's index j,
minus 1, so a taken backward jump sets the instruction pointer to j + 1, the
instruction immediately after the matching jump-forward. -/
theorem C3_backward_resolution {T : Type} (input : List Char) (tape : T)
    (p : BrainfuckProgram T) (i o : Nat)
    (hc : compile input tape = .ok p)
    (hi : p.instructions[i]? = some (.jumpBackwards o)) :
    ∃ j, MatchAt (parseInstrs input) j i ∧ o = i - j - 1 ∧
      ∀ (dp : Nat) (t : List Nat) (inp : Nat → Nat) (n : Nat),
        (vecGrow u8Data t dp).getD dp 0 ≠ 0 →
        step u8Data (vecOps u8Data) ⟨i, dp, p.instructions, t⟩ inp n =
          some ⟨false, ⟨j + 1, dp, p.instructions, vecGrow u8Data t dp⟩, [], n⟩ := by
  obtain ⟨j, hm, ho, hji⟩ := compiled_jb_spec hc hi
  refine ⟨j, hm, ho, ?_⟩
  intro dp t inp n hv
  have hstep := step_vec_jb_taken hi dp t inp n hv
  have hip : i - o = j + 1 := by omega
  rw [hip] at hstep
  exact hstep

/-- C3 witness: the statement instantiated on the compiled program of the
three-character source left-bracket, plus, right-bracket. -/
theorem C3_backward_resolution_witness :
    ∃ j, MatchAt (parseInstrs "[+]".toList) j 2 ∧ 1 = 2 - j - 1 ∧
      ∀ (dp : Nat) (t : List Nat) (inp : Nat → Nat) (n : Nat),
        (vecGrow u8Data t dp).getD dp 0 ≠ 0 →
        step u8Data (vecOps u8Data)
            ⟨2, dp, [.jumpForward 3, .increaseData, .jumpBackwards 1], t⟩ inp n =
          some ⟨false, ⟨j + 1, dp, [.jumpForward 3, .increaseData, .jumpBackwards 1],
            vecGrow u8Data t dp⟩, [], n⟩ :=
  C3_backward_resolution "[+]".toList ([] : List Nat)
    ⟨0, 0, [.jumpForward 3, .increaseData, .jumpBackwards 1], []⟩ 2 1 rfl rfl

/-- C4 counterexample.  The claim says a step on a halted program (instruction
pointer at or past the end) leaves the tape unchanged.  On the empty program
with an empty growable tape, the halted step grows the tape to hold one zero
cell, because the cell at the data pointer is fetched before the halt check. -/
theorem C4_counterexample :
    step u8Data (vecOps u8Data) ⟨0, 0, [], ([] : List Nat)⟩ zeroInput 0 =
      some ⟨true, ⟨0, 0, [], [0]⟩, [], 0⟩ ∧
    ([0] : List Nat) ≠ ([] : List Nat) :=
  ⟨rfl, by decide⟩

/-- C4 amended: when the instruction pointer is at or past the end of the
instruction list, step reports the halted terminal condition, invokes neither
the byte-sink nor the byte-source (no output, input position unchanged), and
leaves the instruction pointer and the data pointer unchanged; the tape is
unchanged provided the data pointer is within the tape's current length
(otherwise the growable tape is extended with zeroes by the cell fetch that
precedes the halt check), and the fixed tape also halts unchanged when the
data pointer is in range.  The program compiled from the empty source has an
empty instruction list and its first step halts immediately without invoking
sink or source. -/
theorem C4_halted_step {D : Type} [inst : DecidableEq D] (td : TapeData D)
    (p : BrainfuckProgram (List D)) (inp : Nat → D) (n : Nat) (tape0 : List D)
    (hip : p.instructions.length ≤ p.instruction_pointer) :
    step td (vecOps td) p inp n =
      some ⟨true, { p with tape := vecGrow td p.tape p.data_pointer }, [], n⟩ ∧
    (p.data_pointer < p.tape.length →
      step td (vecOps td) p inp n = some ⟨true, p, [], n⟩ ∧
      step td (arrOps td) p inp n = some ⟨true, p, [], n⟩) ∧
    compile ([] : List Char) tape0 = .ok ⟨0, 0, [], tape0⟩ ∧
    step td (vecOps td) ⟨0, 0, [], tape0⟩ inp n =
      some ⟨true, ⟨0, 0, [], vecGrow td tape0 0⟩, [], n⟩ := by
  refine ⟨step_vec_halted td p inp n hip, ?_, rfl, ?_⟩
  · intro hdp
    refine ⟨?_, step_arr_halted td p inp n hip hdp⟩
    rw [step_vec_halted td p inp n hip, vecGrow_eq_of_lt td hdp]
  · exact step_vec_halted td ⟨0, 0, [], tape0⟩ inp n (Nat.le_refl 0)

/-- C4 witness: the amended statement instantiated on a halted program with a
one-cell tape and in-range data pointer. -/
theorem C4_halted_step_witness :
    step u8Data (vecOps u8Data) ⟨3, 0, [.output], ([7] : List Nat)⟩ zeroInput 0 =
      some ⟨true, ⟨3, 0, [.output], vecGrow u8Data [7] 0⟩, [], 0⟩ ∧
    ((0 : Nat) < 1 →
      step u8Data (vecOps u8Data) ⟨3, 0, [.output], ([7] : List Nat)⟩ zeroInput 0 =
        some ⟨true, ⟨3, 0, [.output], [7]⟩, [], 0⟩ ∧
      step u8Data (arrOps u8Data) ⟨3, 0, [.output], ([7] : List Nat)⟩ zeroInput 0 =
        some ⟨true, ⟨3, 0, [.output], [7]⟩, [], 0⟩) ∧
    compile ([] : List Char) ([9] : List Nat) = .ok ⟨0, 0, [], [9]⟩ ∧
    step u8Data (vecOps u8Data) ⟨0, 0, [], ([9] : List Nat)⟩ zeroInput 0 =
      some ⟨true, ⟨0, 0, [], vecGrow u8Data [9] 0⟩, [], 0⟩ :=
  C4_halted_step u8Data ⟨3, 0, [.output], [7]⟩ zeroInput 0 [9] (by decide)

/-- C5: compiling the one-character source left-bracket fails with
MissingClosingBrace whose span points at line 0, character 1, and compiling
the one-character source right-bracket fails with MissingOpeningBrace whose
span points at line 0, character 1. -/
theorem C5_unmatched_bracket_errors :
    compile "[".toList ([] : List Nat) =
      .error (.missingClosingBrace ⟨.jumpForward 0, "[".toList, 0, 1⟩) ∧
    compile "]".toList ([] : List Nat) =
      .error (.missingOpeningBrace ⟨.jumpBackwards 0, "]".toList, 0, 1⟩) :=
  ⟨rfl, rfl⟩

/-- C6: the scanner never fails and produces exactly one span per occurrence
of the eight Brainfuck characters in the source, in source order (the span
instruction sequence is the filter-map of the recognizer over the raw source
characters); consequently the seven-character source a, left-bracket, b, plus,
c, right-bracket, d compiles to the same instruction list as the
three-character source left-bracket, plus, right-bracket. -/
theorem C6_scanner_skips_invalid :
    (∀ input : List Char, ∃ spans, parse_input input = .ok spans ∧
      spans.map Span.instruction = input.filterMap instrOfChar) ∧
    ∃ p₁ p₂, compile "a[b+c]d".toList ([] : List Nat) = .ok p₁ ∧
      compile "[+]".toList ([] : List Nat) = .ok p₂ ∧
      p₁.instructions = p₂.instructions := by
  constructor
  · intro input
    exact ⟨parseSpans input, rfl, parseInstrs_eq_filterMap input⟩
  · exact ⟨⟨0, 0, [.jumpForward 3, .increaseData, .jumpBackwards 1], []⟩,
      ⟨0, 0, [.jumpForward 3, .increaseData, .jumpBackwards 1], []⟩, rfl, rfl, rfl⟩

/-- C7: every span records the 0-based index of its line (its position in the
line sequence, one increment per line terminator) and the 1-based raw column
of its character within that line, counting every examined character including
skipped ones: the scanner output equals the spec-level positional scan that
enumerates lines from 0 and characters from position 0, emitting character
index (position + 1) for each recognized character. -/
theorem C7_span_positions : ∀ input : List Char, parseSpans input = scanSpec input := by
  intro input
  rw [parseSpans, parseLines_eq_enumFrom]
  rfl

/-- C8: the growable tape's accessors always succeed, returning the cell at
the requested index of the (possibly grown) tape; the tape is unchanged when
the index is in range, and every newly exposed cell (index at or past the old
length) holds the zero value.  The fixed-capacity tape's accessors succeed
exactly for indices below the capacity (the array length) and return the
stored cell. -/
theorem C8_tape_index_semantics {D : Type} (td : TapeData D) (t : List D) (i : Nat) :
    (∃ t' v, vecGetDataAt td t i = some (t', v) ∧
      vecGetDataAtMut td t i = some (t', v) ∧
      i < t'.length ∧ t'[i]? = some v ∧
      (i < t.length → t' = t) ∧
      (∀ k, t.length ≤ k → k < t'.length → t'[k]? = some td.zero)) ∧
    ((arrGetDataAt t i).isSome ↔ i < t.length) ∧
    ((arrGetDataAtMut t i).isSome ↔ i < t.length) ∧
    ∀ h : i < t.length, arrGetDataAt t i = some (t.get ⟨i, h⟩) ∧
      arrGetDataAtMut t i = some (t.get ⟨i, h⟩) := by
  have hlt := lt_length_vecGrow td t i
  refine ⟨⟨vecGrow td t i, (vecGrow td t i).getD i td.zero, rfl, rfl, hlt, ?_,
    fun h => vecGrow_eq_of_lt td h, ?_⟩, ?_, ?_, ?_⟩
  · rw [List.getElem?_eq_getElem hlt]
    simp [List.getD_eq_getElem?_getD, List.getElem?_eq_getElem hlt]
  · intro k hk1 hk2
    by_cases h : t.length ≤ i
    · have hk2' : k < t.length + (i + 1 - t.length) := by
        simpa [vecGrow, if_pos h] using hk2
      simp only [vecGrow, if_pos h]
      rw [List.getElem?_append_right hk1, List.getElem?_replicate, if_pos (by omega)]
    · rw [vecGrow, if_neg h] at hk2
      omega
  · by_cases h : i < t.length <;> simp [arrGetDataAt, h]
  · by_cases h : i < t.length <;> simp [arrGetDataAtMut, h]
  · intro h
    exact ⟨by simp [arrGetDataAt, h], by simp [arrGetDataAtMut, h]⟩

/-- C8 witness: the statement instantiated on the one-cell tape holding 5 and
the out-of-range index 2. -/
theorem C8_tape_index_semantics_witness :
    (∃ t' v, vecGetDataAt u8Data [5] 2 = some (t', v) ∧
      vecGetDataAtMut u8Data [5] 2 = some (t', v) ∧
      2 < t'.length ∧ t'[2]? = some v ∧
      (2 < ([5] : List Nat).length → t' = [5]) ∧
      (∀ k, ([5] : List Nat).length ≤ k → k < t'.length → t'[k]? = some u8Data.zero)) ∧
    ((arrGetDataAt ([5] : List Nat) 2).isSome ↔ 2 < ([5] : List Nat).length) ∧
    ((arrGetDataAtMut ([5] : List Nat) 2).isSome ↔ 2 < ([5] : List Nat).length) ∧
    ∀ h : 2 < ([5] : List Nat).length,
      arrGetDataAt ([5] : List Nat) 2 = some (([5] : List Nat).get ⟨2, h⟩) ∧
      arrGetDataAtMut ([5] : List Nat) 2 = some (([5] : List Nat).get ⟨2, h⟩) :=
  C8_tape_index_semantics u8Data [5] 2

/-- C9: reset zeroes the instruction pointer, the data pointer, and every tape
cell (the tape keeps its length), while leaving the compiled instruction list
unchanged, on both the growable and the fixed-capacity tape. -/
theorem C9_reset_program {D : Type} (td : TapeData D)
    (p : BrainfuckProgram (List D)) :
    ((p.reset (vecOps td)).instruction_pointer = 0 ∧
     (p.reset (vecOps td)).data_pointer = 0 ∧
     (p.reset (vecOps td)).instructions = p.instructions ∧
     (p.reset (vecOps td)).tape.length = p.tape.length ∧
     ∀ (k : Nat) (x : D), (p.reset (vecOps td)).tape[k]? = some x → x = td.zero) ∧
    ((p.reset (arrOps td)).instruction_pointer = 0 ∧
     (p.reset (arrOps td)).data_pointer = 0 ∧
     (p.reset (arrOps td)).instructions = p.instructions ∧
     (p.reset (arrOps td)).tape.length = p.tape.length ∧
     ∀ (k : Nat) (x : D), (p.reset (arrOps td)).tape[k]? = some x → x = td.zero) := by
  refine ⟨⟨rfl, rfl, rfl, by simp [BrainfuckProgram.reset, vecOps], ?_⟩,
          ⟨rfl, rfl, rfl, by simp [BrainfuckProgram.reset, arrOps], ?_⟩⟩
  all_goals
    intro k x hk
    simp only [BrainfuckProgram.reset, vecOps, arrOps, List.getElem?_map] at hk
    obtain ⟨a, _, hz⟩ := Option.map_eq_some'.mp hk
    exact hz.symm

/-- C9 witness: the statement instantiated on a partially executed program. -/
theorem C9_reset_program_witness :
    (((⟨5, 2, [.input], [3, 4]⟩ : BrainfuckProgram (List Nat)).reset
        (vecOps u8Data)).instruction_pointer = 0 ∧
     ((⟨5, 2, [.input], [3, 4]⟩ : BrainfuckProgram (List Nat)).reset
        (vecOps u8Data)).data_pointer = 0 ∧
     ((⟨5, 2, [.input], [3, 4]⟩ : BrainfuckProgram (List Nat)).reset
        (vecOps u8Data)).instructions =
       (⟨5, 2, [.input], [3, 4]⟩ : BrainfuckProgram (List Nat)).instructions ∧
     ((⟨5, 2, [.input], [3, 4]⟩ : BrainfuckProgram (List Nat)).reset
        (vecOps u8Data)).tape.length =
       (⟨5, 2, [.input], [3, 4]⟩ : BrainfuckProgram (List Nat)).tape.length ∧
     ∀ (k : Nat) (x : Nat), ((⟨5, 2, [.input], [3, 4]⟩ : BrainfuckProgram (List Nat)).reset
        (vecOps u8Data)).tape[k]? = some x → x = u8Data.zero) ∧
    (((⟨5, 2, [.input], [3, 4]⟩ : BrainfuckProgram (List Nat)).reset
        (arrOps u8Data)).instruction_pointer = 0 ∧
     ((⟨5, 2, [.input], [3, 4]⟩ : BrainfuckProgram (List Nat)).reset
        (arrOps u8Data)).data_pointer = 0 ∧
     ((⟨5, 2, [.input], [3, 4]⟩ : BrainfuckProgram (List Nat)).reset
        (arrOps u8Data)).instructions =
       (⟨5, 2, [.input], [3, 4]⟩ : BrainfuckProgram (List Nat)).instructions ∧
     ((⟨5, 2, [.input], [3, 4]⟩ : BrainfuckProgram (List Nat)).reset
        (arrOps u8Data)).tape.length =
       (⟨5, 2, [.input], [3, 4]⟩ : BrainfuckProgram (List Nat)).tape.length ∧
     ∀ (k : Nat) (x : Nat), ((⟨5, 2, [.input], [3, 4]⟩ : BrainfuckProgram (List Nat)).reset
        (arrOps u8Data)).tape[k]? = some x → x = u8Data.zero) :=
  C9_reset_program u8Data ⟨5, 2, [.input], [3, 4]⟩

/-- C10: step fetches the cell at the data pointer before the halt check and
before decoding any instruction.  Consequently, with the fixed-capacity tape a
step faults (the source panics) whenever the data pointer is at or past the
capacity, regardless of the instruction pointer or the current instruction;
and with the growable tape every step succeeds and leaves the tape grown so
that the data pointer is in range. -/
theorem C10_cell_fetch_before_decode {D : Type} [inst : DecidableEq D]
    (td : TapeData D) (p : BrainfuckProgram (List D)) (inp : Nat → D) (n : Nat) :
    (p.tape.length ≤ p.data_pointer → step td (arrOps td) p inp n = none) ∧
    ∃ e, step td (vecOps td) p inp n = some e ∧
      p.data_pointer < e.prog.tape.length :=
  ⟨fun h => step_arr_fault td p inp n h, step_vec_total td p inp n⟩

/-- C10 witness: an already-halted program (instruction pointer 9 past the
single-cell program) with data pointer 3 out of range: the fixed tape faults,
the growable tape grows past index 3. -/
theorem C10_cell_fetch_before_decode_witness :
    step u8Data (arrOps u8Data) ⟨9, 3, [], ([5] : List Nat)⟩ zeroInput 0 = none ∧
    ∃ e, step u8Data (vecOps u8Data) ⟨9, 3, [], ([5] : List Nat)⟩ zeroInput 0 =
      some e ∧ 3 < e.prog.tape.length :=
  ⟨(C10_cell_fetch_before_decode u8Data ⟨9, 3, [], [5]⟩ zeroInput 0).1 (by decide),
   (C10_cell_fetch_before_decode u8Data ⟨9, 3, [], [5]⟩ zeroInput 0).2⟩

end Brainfuck
